import Mathlib

/-!
Verification of the `streams` Go package (JacobASchmidt/streams).

The package represents a stream as a nullary stateful closure
`type Stream[T any] func() (T, bool)`: each call advances the stream and
returns a pair of a value and a boolean discriminant, built via
`More(t) = (t, true)` (one produced element) and
`Done() = (zero[T](), false)` (exhaustion, carrying the zero value).

Shallow embedding: a Go closure of type `func() (T, bool)` is a pure step
function over its captured mutable state, so a stream with state type `σ`
is embedded as `σ → (T × Bool) × σ` (the returned pair plus the updated
state).  Go's `zero[T]()` is `default` of an `Inhabited` instance.
Consumers that loop until exhaustion are embedded with explicit fuel and
return `Option`: `none` means the Go loop has not terminated within the
given number of iterations, `some r` means it terminated with result `r`.
Side-effecting consumers (`ForEachControl`) return the trace of values the
callback was invoked on.  The slice indexing `s[i]`, which panics when out
of bounds, is totalized as an `Option`-valued lookup (`goIndex`), so the
element type of `Elements` becomes `Option T` and `none` marks the panic
branch.
-/

namespace Streams

/-- Embedding of Go `Stream[T]`: a step function over captured state `σ`,
returning the `(value, discriminant)` pair and the updated state. -/
def Stream (σ T : Type) : Type :=
  σ → (T × Bool) × σ

/-- Go `zero[T]()`: the zero value of a type, embedded as `default`. -/
def zero (T : Type) [Inhabited T] : T :=
  default

/-- Go `More[T](t) = (t, true)`: one produced element. -/
def More {T : Type} (t : T) : T × Bool :=
  (t, true)

/-- Go `Done[T]() = (zero[T](), false)`: exhaustion. -/
def Done (T : Type) [Inhabited T] : T × Bool :=
  (zero T, false)

/-- Go `Map`.  Faithful to the source, including its misnamed binding:
the source binds the second return of `in()` — the has-value discriminant —
to a variable named `done` and returns `Done` when it is true, and
`More(f(next))` (with `next` the zero value) when it is false. -/
def Map {σ A B : Type} [Inhabited B] (inS : Stream σ A) (f : A → B) : Stream σ B :=
  fun st =>
    let r := inS st
    let next := r.1.1
    let done := r.1.2
    if done then (Done B, r.2) else (More (f next), r.2)

/-- Go `Range(a, b)`, specialized to `Int`.  The closure captures `b` and
mutates `a`, so `b` is a parameter and `a` is the state: it returns `Done`
when `a == b`, and otherwise yields the old `a` and increments. -/
def Range (b : Int) : Stream Int Int :=
  fun a =>
    if a = b then (Done Int, a) else (More a, a + 1)

/-- Go `Indices(s)` over a slice embedded as a list: `Range(0, len(s))`
(the initial state `0` is supplied where the stream is driven). -/
def Indices {T : Type} (s : List T) : Stream Int Int :=
  Range (s.length : Int)

/-- Totalized Go slice indexing `s[i]`: `some` of the element when
`0 ≤ i < len(s)`, `none` for the out-of-bounds panic branch. -/
def goIndex {T : Type} (s : List T) (i : Int) : Option T :=
  if h : 0 ≤ i ∧ i.toNat < s.length then some (s.get ⟨i.toNat, h.2⟩) else none

/-- Go `Elements(s)`: `Map(Indices(s), func(i) { return s[i] })`.  The
indexing is totalized via `goIndex`, so the element type is `Option T`. -/
def Elements {T : Type} (s : List T) : Stream Int (Option T) :=
  Map (Indices s) (fun i => goIndex s i)

/-- Go `Filter`.  Faithful to the source: after a produced value it
returns `(val, f(val))`, using the predicate itself as the discriminant
instead of looping to the next satisfying element. -/
def Filter {σ T : Type} [Inhabited T] (s : Stream σ T) (f : T → Bool) : Stream σ T :=
  fun st =>
    let r := s st
    let val := r.1.1
    let has_val := r.1.2
    if !has_val then (Done T, r.2) else ((val, f val), r.2)

/-- Go `Control`, returned by the callback of `ForEachControl`. -/
inductive Control : Type
  | Break : Control
  | Continue : Control
deriving DecidableEq, Inhabited

/-- Go `ForEachControl`, embedded with fuel; the result is the trace of
values the callback was invoked on (`none`: the loop did not terminate
within `fuel` iterations).  The loop stops after the first value on which
the callback returns `Break`, and that value is part of the trace. -/
def ForEachControl {σ T : Type} (s : Stream σ T) (f : T → Control) :
    Nat → σ → Option (List T)
  | 0, _ => none
  | fuel + 1, st =>
    let r := s st
    let val := r.1.1
    let has_val := r.1.2
    if !has_val then some []
    else
      match f val with
      | Control.Break => some [val]
      | Control.Continue => (ForEachControl s f fuel r.2).map (fun l => val :: l)

/-- Go `Reduce(s, init, f)` (a left fold implemented with `ForEach`),
embedded with fuel: `some` of the final accumulator when the loop
terminates within `fuel` iterations. -/
def Reduce {σ A B : Type} (s : Stream σ A) (f : B → A → B) :
    Nat → σ → B → Option B
  | 0, _, _ => none
  | fuel + 1, st, init =>
    let r := s st
    let val := r.1.1
    let has_val := r.1.2
    if has_val then Reduce s f fuel r.2 (f init val) else some init

/-- Go `Collect(s)`: `Reduce(s, []T{}, append)`. -/
def Collect {σ T : Type} (s : Stream σ T) (fuel : Nat) (st : σ) : Option (List T) :=
  Reduce s (fun ret el => ret ++ [el]) fuel st []

/-- Go `Pair[A, B]`. -/
structure Pair (A B : Type) : Type where
  First : A
  Second : B
deriving DecidableEq

instance {A B : Type} [Inhabited A] [Inhabited B] : Inhabited (Pair A B) :=
  ⟨⟨default, default⟩⟩

/-- Go `Zip(a, b)`: advances `a` first; if it produced no value the step
returns `Done` without touching `b`; otherwise advances `b`, and yields
the pair only when both produced a value. -/
def Zip {σ₁ σ₂ A B : Type} [Inhabited A] [Inhabited B]
    (a : Stream σ₁ A) (b : Stream σ₂ B) : Stream (σ₁ × σ₂) (Pair A B) :=
  fun st =>
    let ra := a st.1
    let next_a := ra.1.1
    let has_next_a := ra.1.2
    if !has_next_a then (Done (Pair A B), (ra.2, st.2))
    else
      let rb := b st.2
      let next_b := rb.1.1
      let has_next_b := rb.1.2
      if !has_next_b then (Done (Pair A B), (ra.2, rb.2))
      else (More ⟨next_a, next_b⟩, (ra.2, rb.2))

/-- Go `Infinite(f)`: every advance invokes the generator once and wraps
the result in `More`.  The generator closure's captured state is made
explicit: `f` maps the state to the produced value and the new state. -/
def Infinite {σ T : Type} (f : σ → T × σ) : Stream σ T :=
  fun st =>
    let r := f st
    (More r.1, r.2)

/-- Go `Iota()`: `Infinite` over a counter starting at `0` (the initial
state `0` is supplied where the stream is driven); the generator returns
the counter and increments it. -/
def Iota : Stream Int Int :=
  Infinite (fun i => (i, i + 1))

/-- Go `Take(s, i)`: `Reduce(Zip(Range(0, i), s), []T{}, append Second)`. -/
def Take {σ T : Type} [Inhabited T] (s : Stream σ T) (st : σ) (i : Int)
    (fuel : Nat) : Option (List T) :=
  Reduce (Zip (Range i) s) (fun ret el => ret ++ [el.Second]) fuel (0, st) []

/-- Iterated advancing: the state after `n` advances of the stream. -/
def advanceN {σ T : Type} (s : Stream σ T) : Nat → σ → σ
  | 0, st => st
  | n + 1, st => advanceN s n (s st).2

/-- The stream at state `st` produces exactly the elements of `xs`, in
order, and then signals exhaustion. -/
inductive Yields {σ T : Type} (s : Stream σ T) : σ → List T → Prop
  | done (st : σ) (v : T) (st' : σ) (h : s st = ((v, false), st')) :
      Yields s st []
  | more (st : σ) (v : T) (st' : σ) (xs : List T)
      (h : s st = ((v, true), st')) (tail : Yields s st' xs) :
      Yields s st (v :: xs)

/-- The ascending integer list `a, a+1, …, a+n-1`. -/
def intList (a : Int) : Nat → List Int
  | 0 => []
  | n + 1 => a :: intList (a + 1) n

/-- Pairing of two lists, positionally, stopping at the shorter one. -/
def zipPair {A B : Type} : List A → List B → List (Pair A B)
  | x :: xs, y :: ys => ⟨x, y⟩ :: zipPair xs ys
  | _, _ => []

/-- The trace of values a `ForEachControl` callback observes on input
`xs`: everything up to and including the first value mapped to `Break`. -/
def observed {T : Type} (f : T → Control) : List T → List T
  | [] => []
  | x :: xs =>
    match f x with
    | Control.Break => [x]
    | Control.Continue => x :: observed f xs

theorem foldl_append_eq {T : Type} :
    ∀ (xs : List T) (acc : List T),
      xs.foldl (fun ret el => ret ++ [el]) acc = acc ++ xs
  | [], acc => by simp
  | x :: xs, acc => by
    simp [foldl_append_eq xs (acc ++ [x])]

theorem foldl_append_second_eq {A B : Type} :
    ∀ (l : List (Pair A B)) (acc : List B),
      l.foldl (fun ret el => ret ++ [el.Second]) acc
        = acc ++ l.map (fun el => el.Second)
  | [], acc => by simp
  | p :: l, acc => by
    simp [foldl_append_second_eq l (acc ++ [p.Second])]

theorem reduce_yields {σ A B : Type} {s : Stream σ A} {st : σ} {xs : List A}
    (hy : Yields s st xs) :
    ∀ (fuel : Nat), xs.length < fuel → ∀ (f : B → A → B) (acc : B),
      Reduce s f fuel st acc = some (xs.foldl f acc) := by
  induction hy with
  | done st v st' h =>
    intro fuel hf f acc
    cases fuel with
    | zero => omega
    | succ fuel => simp [Reduce, h]
  | more st v st' xs h tail ih =>
    intro fuel hf f acc
    cases fuel with
    | zero => omega
    | succ fuel =>
      simp only [Reduce, h]
      simpa using ih fuel (by simpa using hf) f (f acc v)

theorem collect_yields {σ T : Type} {s : Stream σ T} {st : σ} {xs : List T}
    (hy : Yields s st xs) {fuel : Nat} (hf : xs.length < fuel) :
    Collect s fuel st = some xs := by
  simp [Collect, reduce_yields hy fuel hf, foldl_append_eq]

theorem range_yields :
    ∀ (n : Nat) (b a : Int), a + n = b → Yields (Range b) a (intList a n)
  | 0, b, a, h => by
    apply Yields.done a 0 a
    have hab : a = b := by push_cast at h; omega
    simp [Range, hab, Done, zero]
  | n + 1, b, a, h => by
    have hne : ¬(a = b) := by push_cast at h; omega
    show Yields (Range b) a (a :: intList (a + 1) n)
    apply Yields.more a a (a + 1) (intList (a + 1) n)
    · simp [Range, hne, More]
    · exact range_yields n b (a + 1) (by push_cast at h ⊢; omega)

theorem intList_length : ∀ (n : Nat) (a : Int), (intList a n).length = n
  | 0, a => rfl
  | n + 1, a => by simp [intList, intList_length n (a + 1)]

theorem intList_get :
    ∀ (n : Nat) (a : Int) (i : Nat), i < n → (intList a n).get? i = some (a + i)
  | n + 1, a, 0, _ => by simp [intList]
  | n + 1, a, i + 1, h => by
    have := intList_get n (a + 1) i (by omega)
    simp only [intList, List.get?_cons_succ, this]
    push_cast
    ring_nf

theorem zipPair_length {A B : Type} :
    ∀ (xs : List A) (ys : List B),
      (zipPair xs ys).length = min xs.length ys.length
  | [], [] => rfl
  | [], _ :: _ => by simp [zipPair]
  | _ :: _, [] => by simp [zipPair]
  | x :: xs, y :: ys => by
    simp [zipPair, zipPair_length xs ys]
    omega

theorem zipPair_get {A B : Type} :
    ∀ (xs : List A) (ys : List B) (i : Nat) (x : A) (y : B),
      xs.get? i = some x → ys.get? i = some y →
      (zipPair xs ys).get? i = some ⟨x, y⟩
  | x :: xs, y :: ys, 0, _, _ => by
    intro hx hy
    simp_all [zipPair]
  | x :: xs, y :: ys, i + 1, a, b => by
    intro hx hy
    simp only [List.get?_cons_succ] at hx hy
    simpa [zipPair] using zipPair_get xs ys i a b hx hy
  | [], _, i, _, _ => by intro hx _; simp at hx
  | _ :: _, [], i, _, _ => by intro _ hy; simp at hy

theorem zipPair_map_second {A B : Type} :
    ∀ (xs : List A) (ys : List B),
      (zipPair xs ys).map (fun el => el.Second) = ys.take xs.length
  | [], ys => by simp [zipPair]
  | x :: xs, [] => by simp [zipPair]
  | x :: xs, y :: ys => by
    simp [zipPair, zipPair_map_second xs ys]

theorem zip_yields {σ₁ σ₂ A B : Type} [Inhabited A] [Inhabited B]
    {a : Stream σ₁ A} {b : Stream σ₂ B} {sa : σ₁} {xs : List A}
    (ha : Yields a sa xs) :
    ∀ {sb : σ₂} {ys : List B}, Yields b sb ys →
      Yields (Zip a b) (sa, sb) (zipPair xs ys) := by
  induction ha with
  | done st v st' h =>
    intro sb ys _
    apply Yields.done (st, sb) (zero (Pair A B)) (st', sb)
    simp [Zip, h, Done]
  | more st v st' xs h tail ih =>
    intro sb ys hb
    cases hb with
    | done u w st2' h2 =>
      apply Yields.done (st, sb) (zero (Pair A B)) (st', st2')
      simp [Zip, h, h2, Done]
    | more u w st2' ys h2 tail2 =>
      show Yields (Zip a b) (st, sb) (⟨v, w⟩ :: zipPair xs ys)
      apply Yields.more (st, sb) ⟨v, w⟩ (st', st2') (zipPair xs ys)
      · simp [Zip, h, h2, More]
      · exact ih tail2

theorem zip_range_neg {σ T : Type} [Inhabited T] {s : Stream σ T} {n : Int}
    (hn : n < 0) {st : σ} {xs : List T} (hy : Yields s st xs) :
    ∀ (a : Int), 0 ≤ a →
      Yields (Zip (Range n) s) (a, st) (zipPair (intList a xs.length) xs) := by
  induction hy with
  | done st v st' h =>
    intro a ha
    apply Yields.done (a, st) (zero (Pair Int T)) (a + 1, st')
    have hne : ¬(a = n) := by omega
    simp [Zip, Range, hne, More, h, Done, intList, zipPair]
  | more st v st' xs h tail ih =>
    intro a ha
    show Yields (Zip (Range n) s) (a, st)
      (⟨a, v⟩ :: zipPair (intList (a + 1) xs.length) xs)
    apply Yields.more (a, st) ⟨a, v⟩ (a + 1, st') (zipPair (intList (a + 1) xs.length) xs)
    · have hne : ¬(a = n) := by omega
      simp [Zip, Range, hne, More, h]
    · exact ih (a + 1) (by omega)

theorem forEachControl_trace {σ T : Type} {s : Stream σ T} {f : T → Control}
    {st : σ} {xs : List T} (hy : Yields s st xs) :
    ∀ (fuel : Nat), xs.length < fuel →
      ForEachControl s f fuel st = some (observed f xs) := by
  induction hy with
  | done st v st' h =>
    intro fuel hf
    cases fuel with
    | zero => omega
    | succ fuel => simp [ForEachControl, h, observed]
  | more st v st' xs h tail ih =>
    intro fuel hf
    cases fuel with
    | zero => omega
    | succ fuel =>
      cases hfv : f v with
      | Break => simp [ForEachControl, h, observed, hfv]
      | Continue =>
        simp [ForEachControl, h, observed, hfv, ih fuel (by simpa using hf)]

theorem iota_advanceN : ∀ (n : Nat) (a : Int), advanceN Iota n a = a + n
  | 0, a => by simp [advanceN]
  | n + 1, a => by
    show advanceN Iota n ((Iota a).2) = a + ((n : Int) + 1)
    have h2 : (Iota a).2 = a + 1 := rfl
    rw [h2, iota_advanceN n (a + 1)]
    ring

theorem intList_sum_double :
    ∀ (n : Nat) (a : Int), (intList a n).sum * 2 = (2 * a + n - 1) * n
  | 0, a => by simp [intList]
  | n + 1, a => by
    have ih := intList_sum_double n (a + 1)
    simp only [intList, List.sum_cons]
    push_cast at ih ⊢
    nlinarith [ih]

theorem foldl_add_eq_sum :
    ∀ (l : List Int) (c : Int),
      l.foldl (fun init val => init + val) c = c + l.sum
  | [], c => by simp
  | x :: l, c => by
    simp only [List.foldl_cons, List.sum_cons]
    rw [foldl_add_eq_sum l (c + x)]
    ring

/-- C1: the claim says `Map(seq, f)` exhausts exactly when its source is
exhausted and otherwise yields `f` of the produced value, so that
`Collect(Map(seq, f))` is the element-wise image of `Collect(seq)`.  The
code contradicts this: `Map` binds the has-value discriminant of `in()` to
a variable named `done` and branches on it, so on the one-element source
`Range(0,1)` the first advance of `Map` returns `Done` and the collected
result is `[]` instead of `[f 0] = [1]`, while on the already-exhausted
source `Range(0,0)` `Map` yields `More (f 0) = More 1` built from the zero
value.  This theorem evaluates the code at those failing inputs. -/
theorem map_inverts_discriminant :
    Collect (Map (Range 1) (fun a => a + 1)) 5 0 = some [] ∧
    Map (Range 1) (fun a => a + 1) 0 = ((0, false), 1) ∧
    Map (Range 0) (fun a => a + 1) 0 = ((1, true), 0) := by
  decide

/-- C2: the claim says `Filter(seq, pred)` loops past elements failing the
predicate, so `Collect(Filter(seq, pred))` keeps exactly the satisfying
elements.  The code is the single-check variant: after a produced value it
returns `(val, pred val)`, so the first failing element terminates the
filtered stream.  On `Range(1,4) = [1,2,3]` with the evenness predicate
the collected result is `[]` instead of `[2]`: the first advance returns
`(1, false)`, which consumers read as exhaustion. -/
theorem filter_single_check_truncates :
    Collect (Filter (Range 4) (fun v => v % 2 == 0)) 10 1 = some [] ∧
    Filter (Range 4) (fun v => v % 2 == 0) 1 = ((1, false), 2) := by
  decide

/-- C3: the claim says `Collect(Elements(s)) = s`.  `Elements` is built
from the inverted `Map` (see C1), so for the one-element slice `[5]` the
first advance of `Elements([5])` sees `Indices` produce index `0` and
returns `Done`: the collected result is `[]`, not `[5]`. -/
theorem collect_elements_not_identity :
    Collect (Elements ([5] : List Int)) 5 0 = some [] ∧
    Collect (Elements ([5] : List Int)) 5 0 ≠ some (([5] : List Int).map some) := by
  decide

/-- C4 counterexample: at a = 1, b = 0 (so a ≥ b) the claim says
`Range(1,0)` immediately exhausts and `Collect` is empty; in fact the
first advance yields `More 1` with the cursor moving to `2` (away from
`b`), and driving `Collect` for 50 iterations does not terminate with the
empty result. -/
theorem range_reversed_not_exhausted :
    Range 0 1 = ((1, true), 2) ∧ Collect (Range 0) 50 1 ≠ some [] := by
  decide

/-- C4 (amended): for a ≤ b, `Collect(Range(a,b))` terminates with the
ascending sequence a, a+1, …, b-1 of length b-a; for a = b the stream
immediately exhausts; but for a > b it does not immediately exhaust — the
first advance yields `More a` and increments the cursor past `b`. -/
theorem range_collect_spec (a b : Int) :
    (a ≤ b →
      Collect (Range b) ((b - a).toNat + 1) a = some (intList a (b - a).toNat) ∧
      (intList a (b - a).toNat).length = (b - a).toNat ∧
      (∀ i : Nat, i < (b - a).toNat →
        (intList a (b - a).toNat).get? i = some (a + i))) ∧
    (a = b → Range b a = (Done Int, a)) ∧
    (b < a → Range b a = (More a, a + 1)) := by
  refine ⟨fun hab => ?_, fun hab => ?_, fun hab => ?_⟩
  · have hy : Yields (Range b) a (intList a (b - a).toNat) :=
      range_yields (b - a).toNat b a (by omega)
    exact ⟨collect_yields hy (by rw [intList_length]; omega),
      intList_length _ _, fun i hi => intList_get _ _ i hi⟩
  · simp [Range, hab]
  · have hne : ¬(a = b) := by omega
    simp [Range, hne]

/-- C4 witness: the amended theorem applied at a = 1, b = 3. -/
theorem range_collect_spec_witness :
    (1 : Int) ≤ 3 ∧
    Collect (Range 3) (((3 : Int) - 1).toNat + 1) 1 =
      some (intList 1 ((3 : Int) - 1).toNat) :=
  ⟨by decide, ((range_collect_spec 1 3).1 (by decide)).1⟩

/-- C5 counterexample: the claim says a negative count is clamped to an
empty result; in fact `Take(Range(10,12), -1)` terminates with `[10, 11]`
— all remaining elements — because `Range(0,-1)` never exhausts while
counting upward. -/
theorem take_negative_not_empty :
    Take (Range 12) 10 (-1) 10 = some [10, 11] ∧
    Take (Range 12) 10 (-1) 10 ≠ some [] := by
  decide

/-- C5 (amended): for a stream whose remaining elements are `xs`,
`Take(seq, n)` with n ≥ 0 returns exactly n elements when `xs` has at
least n, else all of `xs`, preserving order (`xs.take n`); but a negative
n is not clamped to an empty result: `Take(seq, n)` then returns all of
`xs`, because `Zip`'s `Range(0,n)` side never exhausts. -/
theorem take_spec {σ T : Type} [Inhabited T] (s : Stream σ T) (st : σ)
    (xs : List T) (h : Yields s st xs) (n : Int) :
    Take s st n (xs.length + 1) =
      some (if 0 ≤ n then xs.take n.toNat else xs) := by
  by_cases hn : 0 ≤ n
  · have hr : Yields (Range n) 0 (intList 0 n.toNat) :=
      range_yields n.toNat n 0 (by omega)
    have hz := zip_yields hr h
    have hlen : (zipPair (intList 0 n.toNat) xs).length < xs.length + 1 := by
      rw [zipPair_length, intList_length]; omega
    simp only [Take]
    rw [reduce_yields hz (xs.length + 1) hlen, foldl_append_second_eq]
    simp [zipPair_map_second, intList_length, hn]
  · have hz := zip_range_neg (show n < 0 by omega) h 0 (by norm_num)
    have hlen : (zipPair (intList 0 xs.length) xs).length < xs.length + 1 := by
      rw [zipPair_length, intList_length]; omega
    simp only [Take]
    rw [reduce_yields hz (xs.length + 1) hlen, foldl_append_second_eq]
    simp [zipPair_map_second, intList_length, hn]

/-- C5 witness: the amended theorem applied to `Range(10,12)` (remaining
elements `[10, 11]`) with the negative count n = -1. -/
theorem take_spec_witness :
    Take (Range 12) 10 (-1) ([10, 11].length + 1) =
      some (if (0 : Int) ≤ -1 then ([10, 11] : List Int).take (-1 : Int).toNat
            else [10, 11]) := by
  have hy : Yields (Range 12) 10 [10, 11] :=
    Yields.more 10 10 11 [11] (by decide)
      (Yields.more 11 11 12 [] (by decide)
        (Yields.done 12 0 12 (by decide)))
  exact take_spec (Range 12) 10 [10, 11] hy (-1)

/-- C6: for every n ≥ 0 (as a natural number), `Reduce(Range(0,n), 0, sum)`
terminates within n+1 iterations with the triangular number n·(n-1)/2; in
particular at n = 1000 — the repository's regression test — the result is
499500. -/
theorem reduce_range_triangular :
    (∀ n : Nat,
      Reduce (Range (n : Int)) (fun init val => init + val) (n + 1) 0 0 =
        some (((n : Int) * ((n : Int) - 1)) / 2)) ∧
    Reduce (Range (1000 : Int)) (fun init val => init + val) 1001 0 0 =
      some 499500 := by
  have key : ∀ n : Nat,
      Reduce (Range (n : Int)) (fun init val => init + val) (n + 1) 0 0 =
        some (((n : Int) * ((n : Int) - 1)) / 2) := by
    intro n
    have hy : Yields (Range (n : Int)) 0 (intList 0 n) :=
      range_yields n (n : Int) 0 (by omega)
    have hlen : (intList 0 n).length < n + 1 := by rw [intList_length]; omega
    rw [reduce_yields hy (n + 1) hlen, foldl_add_eq_sum]
    have hm : (n : Int) * ((n : Int) - 1) = (intList 0 n).sum * 2 := by
      rw [intList_sum_double n 0]; ring
    rw [hm, Int.mul_ediv_cancel _ (by norm_num)]
    norm_num
  refine ⟨key, ?_⟩
  have h1000 := key 1000
  norm_num at h1000 ⊢
  exact h1000

/-- C7: if stream `a` has remaining elements `xs` and stream `b` has
remaining elements `ys`, then `Zip(a, b)` produces exactly
`zipPair xs ys` and exhausts: that list has length min(len xs, len ys)
and its i-th pair is made of the i-th elements of `xs` and `ys`.
Moreover, when `a`'s advance reports exhaustion, the `Zip` step returns
`Done` without advancing `b` at all (the longer side is not drained). -/
theorem zip_spec {σ₁ σ₂ A B : Type} [Inhabited A] [Inhabited B]
    (a : Stream σ₁ A) (b : Stream σ₂ B) (sa : σ₁) (sb : σ₂)
    (xs : List A) (ys : List B)
    (ha : Yields a sa xs) (hb : Yields b sb ys) :
    Yields (Zip a b) (sa, sb) (zipPair xs ys) ∧
    (zipPair xs ys).length = min xs.length ys.length ∧
    (∀ (i : Nat) (x : A) (y : B), xs.get? i = some x → ys.get? i = some y →
      (zipPair xs ys).get? i = some ⟨x, y⟩) ∧
    (∀ (ta : σ₁) (tb : σ₂) (v : A) (ta' : σ₁), a ta = ((v, false), ta') →
      Zip a b (ta, tb) = ((zero (Pair A B), false), (ta', tb))) := by
  refine ⟨zip_yields ha hb, zipPair_length xs ys,
    fun i x y hx hy => zipPair_get xs ys i x y hx hy,
    fun ta tb v ta' hta => ?_⟩
  simp [Zip, hta, Done]

/-- C7 witness: the theorem applied to `Range(0,2)` (elements `[0, 1]`)
and `Range(10,13)` (elements `[10, 11, 12]`). -/
theorem zip_spec_witness :
    Yields (Zip (Range 2) (Range 13)) ((0 : Int), (10 : Int))
      (zipPair [0, 1] [10, 11, 12]) ∧
    (zipPair ([0, 1] : List Int) ([10, 11, 12] : List Int)).length =
      min ([0, 1] : List Int).length ([10, 11, 12] : List Int).length := by
  have ha : Yields (Range 2) 0 [0, 1] :=
    Yields.more 0 0 1 [1] (by decide)
      (Yields.more 1 1 2 [] (by decide) (Yields.done 2 0 2 (by decide)))
  have hb : Yields (Range 13) 10 [10, 11, 12] :=
    Yields.more 10 10 11 [11, 12] (by decide)
      (Yields.more 11 11 12 [12] (by decide)
        (Yields.more 12 12 13 [] (by decide)
          (Yields.done 13 0 13 (by decide))))
  have h := zip_spec (Range 2) (Range 13) 0 10 [0, 1] [10, 11, 12] ha hb
  exact ⟨h.1, h.2.1⟩

/-- C8: `ForEachControl` invokes the callback on exactly the prefix of the
stream's elements up to and including the first one on which it returns
`Break` (`observed`): nothing after the `Break` is observed.  In
particular, on the stream `Range(1,5)` producing `[1,2,3,4]` with a
callback breaking at value 3, the callback observes exactly `[1, 2, 3]`
and never 4. -/
theorem forEachControl_break_spec :
    (∀ (σ T : Type) (s : Stream σ T) (f : T → Control) (st : σ)
      (xs : List T), Yields s st xs → ∀ fuel : Nat, xs.length < fuel →
        ForEachControl s f fuel st = some (observed f xs)) ∧
    ForEachControl (Range 5)
      (fun v => if v = 3 then Control.Break else Control.Continue) 10 1 =
      some [1, 2, 3] ∧
    ¬((4 : Int) ∈ ([1, 2, 3] : List Int)) := by
  exact ⟨fun σ T s f st xs hy fuel hf => forEachControl_trace hy fuel hf,
    by decide, by decide⟩

/-- C8 witness: the general part applied to `Range(1,5)` (elements
`[1,2,3,4]`) with the callback breaking at 3. -/
theorem forEachControl_break_spec_witness :
    ForEachControl (Range 5)
      (fun v => if v = 3 then Control.Break else Control.Continue) 5 1 =
      some (observed
        (fun v => if v = 3 then Control.Break else Control.Continue)
        [1, 2, 3, 4]) := by
  have hy : Yields (Range 5) 1 [1, 2, 3, 4] :=
    Yields.more 1 1 2 [2, 3, 4] (by decide)
      (Yields.more 2 2 3 [3, 4] (by decide)
        (Yields.more 3 3 4 [4] (by decide)
          (Yields.more 4 4 5 [] (by decide)
            (Yields.done 5 0 5 (by decide)))))
  exact forEachControl_break_spec.1 Int Int (Range 5)
    (fun v => if v = 3 then Control.Break else Control.Continue)
    1 [1, 2, 3, 4] hy 5 (by decide)

/-- C9: every advance of `Infinite(f)` invokes the generator exactly once
and wraps its value in `More` — the discriminant is always `true`, so the
stream never exhausts; and `Iota()`, after any number n of advances from
its initial state, is at counter n and its next advance yields `More n`
(never `Done`), producing 0, 1, 2, …. -/
theorem infinite_never_done :
    (∀ (σ T : Type) (f : σ → T × σ) (st : σ),
      Infinite f st = (((f st).1, true), (f st).2)) ∧
    (∀ n : Nat, advanceN Iota n 0 = (n : Int) ∧
      Iota (advanceN Iota n 0) = (((n : Int), true), (n : Int) + 1)) := by
  constructor
  · intro σ T f st
    simp [Infinite, More]
  · intro n
    have h : advanceN Iota n 0 = (n : Int) := by rw [iota_advanceN]; ring
    exact ⟨h, by rw [h]; simp [Iota, Infinite, More]⟩

/-- C10: on the empty slice, the first advance of `Elements([])` does not
return `Done`: `Indices([])` is immediately exhausted, and the inverted
`Map` (see C1) therefore applies the index-to-element lookup to the zero
value `0` — an out-of-bounds access, since the empty slice has no index 0;
in the total embedding the lookup returns the error value `none`, which
the advance yields as `More none` at the public interface. -/
theorem elements_empty_out_of_bounds :
    Elements ([] : List Int) 0 = ((goIndex ([] : List Int) 0, true), 0) ∧
    goIndex ([] : List Int) 0 = none ∧
    ¬((0 : Int).toNat < ([] : List Int).length) := by
  decide

end Streams
